import Mathlib

/-!
# A formal model of the NPY / NPZ array-serialization codec

The repository ships fixture-generation scripts (`write_examples.py`,
`write_npz_examples.py`) used to exercise an array-serialization codec for
the NPY format and the NPZ (zip-of-NPY) archive format.  The codec itself
(TypeDescriptor, HeaderCodec, ElementCodec, ArrayCodec, ArchiveCodec) is
specified in the accompanying design document; this development gives a
byte-level executable model of it and proves the specified properties.

Conventions of the model:
* a byte stream is a `List Nat` whose members are byte values `0 ≤ b < 256`;
* textual content is modelled at the byte level (ASCII codes), so the quote
  character is the byte `39`, braces are `123`/`125`, newline is `10`;
* floating-point scalars are represented by their IEEE-754 bit patterns
  (a `Nat` below `2^32` or `2^64`), which is exactly the information the
  codec moves around — the codec never does float arithmetic;
* the host byte order (used to resolve the `=` dtype character) is taken to
  be little-endian, matching the machines that produced the fixtures.
-/

namespace Npy

/-! ## Byte-level utilities -/

/-- Little-endian byte encoding of `n` in `size` bytes (truncating). -/
def leBytes : Nat → Nat → List Nat
  | 0, _ => []
  | size + 1, n => n % 256 :: leBytes size (n / 256)

/-- Big-endian byte encoding of `n` in `size` bytes. -/
def beBytes (size n : Nat) : List Nat := (leBytes size n).reverse

/-- Value of a little-endian byte string. -/
def leVal : List Nat → Nat
  | [] => 0
  | b :: bs => b + 256 * leVal bs

/-- Value of a big-endian byte string. -/
def beVal (bs : List Nat) : Nat := leVal bs.reverse

theorem leBytes_length (size n : Nat) : (leBytes size n).length = size := by
  induction size generalizing n with
  | zero => rfl
  | succ k ih => simp [leBytes, ih]

theorem beBytes_length (size n : Nat) : (beBytes size n).length = size := by
  simp [beBytes, leBytes_length]

theorem leVal_leBytes (size n : Nat) (h : n < 256 ^ size) :
    leVal (leBytes size n) = n := by
  induction size generalizing n with
  | zero =>
    simp [pow_zero] at h
    simp [leBytes, leVal, h]
  | succ k ih =>
    have hdiv : n / 256 < 256 ^ k := by
      rw [Nat.div_lt_iff_lt_mul (by norm_num)]
      calc n < 256 ^ (k + 1) := h
        _ = 256 ^ k * 256 := by ring
    simp only [leBytes, leVal, ih (n / 256) hdiv]
    omega

/-! ## Decimal numerals (for shape rendering inside the header text) -/

/-- Little-endian list of ASCII digit bytes of `n`; `fuel ≥ n` makes it total.
`0` yields `[]`. -/
def decDigitsRev : Nat → Nat → List Nat
  | 0, _ => []
  | fuel + 1, n => if n = 0 then [] else (48 + n % 10) :: decDigitsRev fuel (n / 10)

/-- ASCII decimal rendering of a natural number (most-significant digit first),
as Python prints it: no sign, no leading zeros, `0 ↦ "0"`. -/
def natToDec (n : Nat) : List Nat := if n = 0 then [48] else (decDigitsRev n n).reverse

/-- A byte is an ASCII digit. -/
def isDigitB (b : Nat) : Bool := 48 ≤ b && b ≤ 57

/-- Split the longest leading run of digit bytes from a byte string. -/
def takeDigits : List Nat → List Nat × List Nat
  | [] => ([], [])
  | b :: bs =>
    if isDigitB b then
      let p := takeDigits bs
      (b :: p.1, p.2)
    else ([], b :: bs)

/-- Value of a big-endian digit-byte string. -/
def digitsVal (ds : List Nat) : Nat := ds.foldl (fun a b => a * 10 + (b - 48)) 0

/-- Read a decimal numeral from the front of a byte string; fails when the
first byte is not a digit. -/
def readNat (bs : List Nat) : Option (Nat × List Nat) :=
  let p := takeDigits bs
  if p.1 = [] then none else some (digitsVal p.1, p.2)

/-- Value of a little-endian digit-byte string. -/
def digitsValRev : List Nat → Nat
  | [] => 0
  | b :: bs => (b - 48) + 10 * digitsValRev bs

theorem digitsValRev_decDigitsRev (fuel n : Nat) (h : n ≤ fuel) :
    digitsValRev (decDigitsRev fuel n) = n := by
  induction fuel generalizing n with
  | zero =>
    interval_cases n
    rfl
  | succ k ih =>
    by_cases hz : n = 0
    · subst hz; rfl
    · simp only [decDigitsRev, hz, if_false, digitsValRev]
      have h1 : n / 10 ≤ k := by omega
      rw [ih _ h1]
      omega

theorem decDigitsRev_digits (fuel n : Nat) :
    ∀ b ∈ decDigitsRev fuel n, isDigitB b = true := by
  induction fuel generalizing n with
  | zero => intro b hb; simp [decDigitsRev] at hb
  | succ k ih =>
    intro b hb
    by_cases hz : n = 0
    · simp [decDigitsRev, hz] at hb
    · simp only [decDigitsRev, hz, if_false, List.mem_cons] at hb
      rcases hb with hb | hb
      · subst hb; simp [isDigitB]; omega
      · exact ih _ _ hb

theorem decDigitsRev_ne_nil (fuel n : Nat) (h1 : 1 ≤ n) (h2 : n ≤ fuel) :
    decDigitsRev fuel n ≠ [] := by
  obtain ⟨k, rfl⟩ : ∃ k, fuel = k + 1 := ⟨fuel - 1, by omega⟩
  have hz : n ≠ 0 := by omega
  simp [decDigitsRev, hz]

theorem natToDec_digits (n : Nat) : ∀ b ∈ natToDec n, isDigitB b = true := by
  intro b hb
  by_cases hz : n = 0
  · simp [natToDec, hz] at hb
    simp [hb, isDigitB]
  · simp only [natToDec, hz, if_false, List.mem_reverse] at hb
    exact decDigitsRev_digits n n b hb

theorem natToDec_ne_nil (n : Nat) : natToDec n ≠ [] := by
  by_cases hz : n = 0
  · simp [natToDec, hz]
  · simp only [natToDec, hz, if_false, ne_eq, List.reverse_eq_nil_iff]
    exact decDigitsRev_ne_nil n n (by omega) le_rfl

theorem digitsVal_reverse (ds : List Nat) :
    digitsVal ds.reverse = digitsValRev ds := by
  induction ds with
  | nil => rfl
  | cons b bs ih =>
    simp only [List.reverse_cons, digitsVal, List.foldl_append, List.foldl_cons,
      List.foldl_nil, digitsValRev]
    simp only [digitsVal] at ih
    omega

theorem digitsVal_natToDec (n : Nat) : digitsVal (natToDec n) = n := by
  by_cases hz : n = 0
  · simp [natToDec, hz, digitsVal]
  · simp only [natToDec, hz, if_false]
    rw [digitsVal_reverse]
    exact digitsValRev_decDigitsRev n n le_rfl

theorem takeDigits_append (ds rest : List Nat)
    (hd : ∀ b ∈ ds, isDigitB b = true)
    (hr : ∀ b, rest.head? = some b → isDigitB b = false) :
    takeDigits (ds ++ rest) = (ds, rest) := by
  induction ds with
  | nil =>
    cases rest with
    | nil => rfl
    | cons b bs =>
      have := hr b rfl
      simp [takeDigits, this]
  | cons b bs ih =>
    have hb : isDigitB b = true := hd b (by simp)
    have : takeDigits (bs ++ rest) = (bs, rest) := ih (fun x hx => hd x (by simp [hx]))
    simp [takeDigits, hb, this]

/-- The numeral parser inverts the numeral printer whenever the trailing
context does not begin with a digit. -/
theorem readNat_natToDec (n : Nat) (rest : List Nat)
    (hr : ∀ b, rest.head? = some b → isDigitB b = false) :
    readNat (natToDec n ++ rest) = some (n, rest) := by
  have h1 := takeDigits_append (natToDec n) rest (natToDec_digits n) hr
  have h2 := natToDec_ne_nil n
  simp [readNat, h1, h2, digitsVal_natToDec]

/-! ## TypeDescriptor

Modelled from the spec: the codec sources are not part of the repository
snapshot (only the fixture generators are), so `parse` / `serialize` follow
the dtype mini-language of spec §4.1 / §6: strings of the form
`[byteOrderChar]kindChar[width]` with order characters `<`, `>`, `=`
(resolved to the little-endian host order), `|`, and kind characters
`?`, `b`, `B`, `i`, `u`, `f`, `c`. -/

inductive ByteOrder where
  | littleEndian
  | bigEndian
  | notApplicable
deriving DecidableEq, Repr

inductive DKind where
  | bool
  | int
  | uint
  | float
  | complex
deriving DecidableEq, Repr

structure TypeDescriptor where
  byteOrder : ByteOrder
  kind : DKind
  itemSize : Nat
deriving DecidableEq, Repr

/-- Supported widths per kind (spec §3): bool = 1; int/uint ∈ {1,2,4,8};
float ∈ {4,8}; complex ∈ {8,16}. -/
def widthOk : DKind → Nat → Bool
  | .bool, w => w == 1
  | .int, w => w == 1 || w == 2 || w == 4 || w == 8
  | .uint, w => w == 1 || w == 2 || w == 4 || w == 8
  | .float, w => w == 4 || w == 8
  | .complex, w => w == 8 || w == 16

/-- Data-model invariant for descriptors: supported width, and the byte order
is `notApplicable` exactly for single-byte items. -/
def validDesc (d : TypeDescriptor) : Bool :=
  widthOk d.kind d.itemSize && ((d.byteOrder == .notApplicable) == (d.itemSize == 1))

/-- The byte-order character emitted for a descriptor. -/
def orderByteOf : ByteOrder → Nat
  | .littleEndian => 60
  | .bigEndian => 62
  | .notApplicable => 124

/-- The kind character emitted for a descriptor. -/
def kindByteOf : DKind → Nat
  | .bool => 63
  | .int => 105
  | .uint => 117
  | .float => 102
  | .complex => 99

/-- `serialize`: always an explicit order character followed by the kind
character and an explicit decimal width. -/
def serializeDesc (d : TypeDescriptor) : List Nat :=
  orderByteOf d.byteOrder :: kindByteOf d.kind :: natToDec d.itemSize

/-- Peel the optional byte-order character; `=` and an absent character both
resolve to the host order (little-endian). -/
def parseOrder : List Nat → ByteOrder × List Nat
  | [] => (.littleEndian, [])
  | b :: rest =>
    if b = 60 then (.littleEndian, rest)
    else if b = 62 then (.bigEndian, rest)
    else if b = 61 then (.littleEndian, rest)
    else if b = 124 then (.notApplicable, rest)
    else (.littleEndian, b :: rest)

/-- Kind character table: the kind plus its implicit default width when the
character determines the width (`?`, `b`, `B`). -/
def kindOfByte (b : Nat) : Option (DKind × Option Nat) :=
  if b = 63 then some (.bool, some 1)
  else if b = 98 then some (.int, some 1)
  else if b = 66 then some (.uint, some 1)
  else if b = 105 then some (.int, none)
  else if b = 117 then some (.uint, none)
  else if b = 102 then some (.float, none)
  else if b = 99 then some (.complex, none)
  else none

/-- Validate a (order, kind, width) combination and build the descriptor;
single-byte items canonically carry no byte order. -/
def mkDesc (o : ByteOrder) (k : DKind) (w : Nat) : Option TypeDescriptor :=
  if widthOk k w then
    if w = 1 then some ⟨.notApplicable, k, w⟩
    else
      match o with
      | .notApplicable => none
      | o => some ⟨o, k, w⟩
  else none

/-- `TypeDescriptor.parse` over byte strings; `none` models the
`MalformedTypeString` failure. -/
def parseDesc (bs : List Nat) : Option TypeDescriptor :=
  let p := parseOrder bs
  match p.2 with
  | [] => none
  | kb :: r2 =>
    match kindOfByte kb with
    | none => none
    | some (k, dw) =>
      match r2 with
      | [] =>
        match dw with
        | some w => mkDesc p.1 k w
        | none => none
      | _ =>
        match readNat r2 with
        | none => none
        | some (w, r3) =>
          if r3 = [] then
            match dw with
            | some d => if w = d then mkDesc p.1 k w else none
            | none => mkDesc p.1 k w
          else none

theorem widthOk_le_16 (k : DKind) (w : Nat) (h : widthOk k w = true) : w ≤ 16 := by
  cases k <;> simp only [widthOk, Bool.or_eq_true, beq_iff_eq] at h <;> omega

theorem parseDesc_serializeDesc (d : TypeDescriptor) (h : validDesc d = true) :
    parseDesc (serializeDesc d) = some d := by
  obtain ⟨o, k, w⟩ := d
  have hwk : widthOk k w = true := by
    simp only [validDesc, Bool.and_eq_true] at h
    exact h.1
  have hw : w ≤ 16 := widthOk_le_16 k w hwk
  cases k <;> cases o <;> interval_cases w <;> revert h <;> decide

theorem mkDesc_valid (o : ByteOrder) (k : DKind) (w : Nat) (d : TypeDescriptor)
    (h : mkDesc o k w = some d) : validDesc d = true := by
  unfold mkDesc at h
  by_cases h1 : widthOk k w = true
  · rw [if_pos h1] at h
    by_cases h2 : w = 1
    · subst h2
      rw [if_pos rfl] at h
      injection h with h
      subst h
      simp [validDesc, h1]
    · rw [if_neg h2] at h
      cases o with
      | notApplicable => exact absurd h (by simp)
      | littleEndian =>
        injection h with h
        subst h
        simp [validDesc, h1, h2]
      | bigEndian =>
        injection h with h
        subst h
        simp [validDesc, h1, h2]
  · rw [if_neg h1] at h
    exact absurd h (by simp)

/-- Every descriptor the parser accepts satisfies the data-model invariant,
so it re-serializes stably (spec §4.1). -/
theorem parseDesc_valid (bs : List Nat) (d : TypeDescriptor)
    (h : parseDesc bs = some d) : validDesc d = true := by
  simp only [parseDesc] at h
  repeat' split at h
  all_goals
    first
      | exact absurd h (by simp)
      | exact mkDesc_valid _ _ _ _ h

/-- C2: for every supported TypeDescriptor `d`, `parse (serialize d) = d`, and
`serialize` always emits an explicit byte-order character (`<`, `>` or `|`,
never `=` or nothing) and an explicit decimal width — also for descriptors
that were originally parsed from a string using `=` or a kind character with
an implicit default width, since every parse result is a valid descriptor and
all valid descriptors round-trip. -/
theorem c2_typeDescriptor_roundtrip (d : TypeDescriptor) (h : validDesc d = true) :
    parseDesc (serializeDesc d) = some d ∧
    serializeDesc d = orderByteOf d.byteOrder :: kindByteOf d.kind :: natToDec d.itemSize ∧
    (orderByteOf d.byteOrder = 60 ∨ orderByteOf d.byteOrder = 62 ∨
      orderByteOf d.byteOrder = 124) ∧
    natToDec d.itemSize ≠ [] ∧ (∀ b ∈ natToDec d.itemSize, isDigitB b = true) ∧
    (∀ s d2, parseDesc s = some d2 → parseDesc (serializeDesc d2) = some d2) := by
  refine ⟨parseDesc_serializeDesc d h, rfl, ?_, natToDec_ne_nil _, natToDec_digits _, ?_⟩
  · cases d.byteOrder <;> simp [orderByteOf]
  · intro s d2 hs
    exact parseDesc_serializeDesc d2 (parseDesc_valid s d2 hs)

/-- Witness for C2 at the descriptor `<i4`, including the `=i4` input showing
that a native-order input re-serializes with an explicit `<`. -/
theorem c2_typeDescriptor_roundtrip_witness :
    validDesc ⟨.littleEndian, .int, 4⟩ = true ∧
    parseDesc (serializeDesc ⟨.littleEndian, .int, 4⟩) = some ⟨.littleEndian, .int, 4⟩ ∧
    parseDesc [61, 105, 52] = some ⟨.littleEndian, .int, 4⟩ ∧
    serializeDesc ⟨.littleEndian, .int, 4⟩ = [60, 105, 52] :=
  ⟨by decide, (c2_typeDescriptor_roundtrip ⟨.littleEndian, .int, 4⟩ (by decide)).1,
    by decide, by decide⟩

/-! ## HeaderCodec

Modelled from the spec (§4.2, §6): the binary preamble is the 6-byte magic,
a (major, minor) version pair, a little-endian header-length field (2 bytes
for version 1.x, 4 bytes for version ≥ 2.0) and the textual dictionary
`\x7b'descr': …, 'fortran_order': …, 'shape': …, \x7d` padded with ASCII
spaces plus a trailing newline so the whole preamble length is a multiple
of 16.  The writer chooses version 1.0 unless the padded dictionary exceeds
the 2-byte length range, in which case it chooses 2.0. -/

structure Header where
  descr : TypeDescriptor
  fortranOrder : Bool
  shape : List Nat
deriving DecidableEq, Repr

/-- ASCII bytes of a string literal (used only for quote-free fragments). -/
def str2bytes (s : String) : List Nat := s.data.map Char.toNat

/-- The 6-byte NPY magic `\x93NUMPY`. -/
def npyMagic : List Nat := 147 :: str2bytes "NUMPY"

/-- Comma-space separated decimal list, Python style, no trailing comma. -/
def shapeInner : List Nat → List Nat
  | [] => []
  | [n] => natToDec n
  | n :: ns => natToDec n ++ [44, 32] ++ shapeInner ns

/-- Python tuple rendering of a shape: `()`, `(7,)` with a trailing comma for
exactly one element, `(2, 3)` otherwise. -/
def shapeBytes : List Nat → List Nat
  | [] => [40, 41]
  | [n] => 40 :: (natToDec n ++ [44, 41])
  | ns => 40 :: (shapeInner ns ++ [41])

/-- `True` / `False`, Python style. -/
def boolBytes (b : Bool) : List Nat :=
  if b then str2bytes "True" else str2bytes "False"

/-- Literal segment before the descriptor value. -/
def seg1 : List Nat := [123, 39] ++ str2bytes "descr" ++ [39, 58, 32, 39]

/-- Literal segment between the descriptor and the fortran-order value. -/
def seg2 : List Nat := [39, 44, 32, 39] ++ str2bytes "fortran_order" ++ [39, 58, 32]

/-- Literal segment between the fortran-order value and the shape value. -/
def seg3 : List Nat := [44, 32, 39] ++ str2bytes "shape" ++ [39, 58, 32]

/-- Literal segment closing the dictionary. -/
def seg4 : List Nat := [44, 32, 125]

/-- The canonical textual header dictionary (writer style of spec §4.2). -/
def dictText (h : Header) : List Nat :=
  seg1 ++ (serializeDesc h.descr ++ (seg2 ++ (boolBytes h.fortranOrder ++
    (seg3 ++ (shapeBytes h.shape ++ seg4)))))

/-- `HeaderCodec.encode`: magic, minimal version, little-endian length field,
dictionary text space-padded and newline-terminated to a 16-byte-aligned
total preamble. -/
def encodeHeader (h : Header) : List Nat :=
  let text := dictText h
  let pad1 := (16 - (10 + text.length + 1) % 16) % 16
  let hlen1 := text.length + pad1 + 1
  if hlen1 ≤ 65535 then
    npyMagic ++ ([1, 0] ++ (leBytes 2 hlen1 ++
      (text ++ (List.replicate pad1 32 ++ [10]))))
  else
    let pad2 := (16 - (12 + text.length + 1) % 16) % 16
    let hlen2 := text.length + pad2 + 1
    npyMagic ++ ([2, 0] ++ (leBytes 4 hlen2 ++
      (text ++ (List.replicate pad2 32 ++ [10]))))

/-- Error kinds of the codec (spec §7). -/
inductive NpyErr where
  | badMagic
  | unsupportedVersion
  | malformedHeader
  | truncatedData
deriving DecidableEq, Repr

/-- Consume an expected literal byte sequence from the front of a stream. -/
def expectBytes : List Nat → List Nat → Option (List Nat)
  | [], b => some b
  | _ :: _, [] => none
  | p :: ps, x :: xs => if x = p then expectBytes ps xs else none

/-- Take exactly `n` bytes from the front of a stream. -/
def takeN (n : Nat) (b : List Nat) : Option (List Nat × List Nat) :=
  if n ≤ b.length then some (b.take n, b.drop n) else none

/-- Split a stream at the first occurrence of the byte `v`. -/
def breakAt (v : Nat) : List Nat → List Nat × List Nat
  | [] => ([], [])
  | b :: bs =>
    if b = v then ([], b :: bs)
    else
      let p := breakAt v bs
      (b :: p.1, p.2)

/-- The tail of a header dictionary region: ASCII spaces then one newline. -/
def isPadding : List Nat → Bool
  | [] => false
  | b :: bs => if bs = [] then b == 10 else b == 32 && isPadding bs

/-- Parse a comma-space separated decimal list (the inside of a shape tuple),
tolerating one trailing comma; `fuel` bounds the recursion depth. -/
def parseShapeInner : Nat → List Nat → Option (List Nat)
  | 0, _ => none
  | fuel + 1, bs =>
    if bs = [] then some []
    else
      match readNat bs with
      | none => none
      | some (n, r) =>
        if r = [] then some [n]
        else if r = [44] then some [n]
        else if r.take 2 = [44, 32] then
          match parseShapeInner fuel (r.drop 2) with
          | none => none
          | some ns => some (n :: ns)
        else none

/-- Parse a Python tuple of non-negative integers from the front of a stream. -/
def parseShape (bs : List Nat) : Option (List Nat × List Nat) :=
  match bs with
  | [] => none
  | b :: r =>
    if b = 40 then
      let p := breakAt 41 r
      match p.2 with
      | [] => none
      | c :: rest =>
        if c = 41 then
          match parseShapeInner (p.1.length + 1) p.1 with
          | some ns => some (ns, rest)
          | none => none
        else none
    else none

/-- Parse a Python boolean literal from the front of a stream. -/
def parseBool (bs : List Nat) : Option (Bool × List Nat) :=
  match expectBytes (str2bytes "True") bs with
  | some r => some (true, r)
  | none =>
    match expectBytes (str2bytes "False") bs with
    | some r => some (false, r)
    | none => none

/-- Parse the dictionary region of a header (text, space padding, newline)
into the three required keys. -/
def parseDictText (bs : List Nat) : Option Header := do
  let r1 ← expectBytes seg1 bs
  let p := breakAt 39 r1
  let d ← parseDesc p.1
  let r2 ← expectBytes seg2 p.2
  let (f, r3) ← parseBool r2
  let r4 ← expectBytes seg3 r3
  let (ns, r5) ← parseShape r4
  let r6 ← expectBytes seg4 r5
  if isPadding r6 then some ⟨d, f, ns⟩ else none

/-- Read the header-length field: 2 bytes little-endian for version 1.x,
4 bytes little-endian for version 2.0 or greater. -/
def readLenField (major : Nat) (bs : List Nat) : Option (Nat × List Nat) :=
  if major = 1 then
    match takeN 2 bs with
    | some (l, r) => some (leVal l, r)
    | none => none
  else
    match takeN 4 bs with
    | some (l, r) => some (leVal l, r)
    | none => none

/-- `HeaderCodec.decode`: validate the magic, read the version, read the
version-dependent length field, extract the dictionary region and parse it;
the remaining stream is returned untouched. -/
def decodeHeader (bs : List Nat) : Except NpyErr (Header × List Nat) :=
  match expectBytes npyMagic bs with
  | none => .error .badMagic
  | some r1 =>
    match r1 with
    | maj :: _ :: r2 =>
      if maj = 0 then .error .unsupportedVersion
      else
        match readLenField maj r2 with
        | none => .error .truncatedData
        | some (hlen, r3) =>
          match takeN hlen r3 with
          | none => .error .truncatedData
          | some (text, rest) =>
            match parseDictText text with
            | none => .error .malformedHeader
            | some h => .ok (h, rest)
    | _ => .error .truncatedData

theorem expectBytes_append (p r : List Nat) : expectBytes p (p ++ r) = some r := by
  induction p with
  | nil => rfl
  | cons b bs ih => simp [expectBytes, ih]

theorem takeN_append (xs r : List Nat) :
    takeN xs.length (xs ++ r) = some (xs, r) := by
  have hle : xs.length ≤ (xs ++ r).length := by simp
  rw [takeN, if_pos hle, List.take_left, List.drop_left]

theorem breakAt_append (v : Nat) (xs r : List Nat) (hx : ∀ b ∈ xs, b ≠ v) :
    breakAt v (xs ++ v :: r) = (xs, v :: r) := by
  induction xs with
  | nil => simp [breakAt]
  | cons b bs ih =>
    have hb : b ≠ v := hx b (by simp)
    have ih2 := ih (fun x hxm => hx x (by simp [hxm]))
    simp [breakAt, hb, ih2]

theorem isPadding_pad (k : Nat) : isPadding (List.replicate k 32 ++ [10]) = true := by
  induction k with
  | zero => rfl
  | succ m ih =>
    have hne : List.replicate m 32 ++ [10] ≠ [] := by simp
    simp only [List.replicate_succ, List.cons_append, isPadding, hne, if_false]
    simp [ih]

theorem digit_ne_delims (b : Nat) (h : isDigitB b = true) :
    b ≠ 39 ∧ b ≠ 41 ∧ b ≠ 44 := by
  simp only [isDigitB, Bool.and_eq_true, decide_eq_true_eq] at h
  omega

theorem serializeDesc_ne_quote (d : TypeDescriptor) :
    ∀ b ∈ serializeDesc d, b ≠ 39 := by
  intro b hb
  simp only [serializeDesc, List.mem_cons] at hb
  rcases hb with rfl | rfl | hb
  · cases d.byteOrder <;> simp [orderByteOf]
  · cases d.kind <;> simp [kindByteOf]
  · exact (digit_ne_delims b (natToDec_digits d.itemSize b hb)).1

theorem parseBool_boolBytes (f : Bool) (r : List Nat) :
    parseBool (boolBytes f ++ r) = some (f, r) := by
  cases f
  · have hT : str2bytes "True" = [84, 114, 117, 101] := rfl
    have hF : boolBytes false = [70, 97, 108, 115, 101] := rfl
    rw [parseBool, hT, hF]
    simp [expectBytes]
  · rw [parseBool, show boolBytes true = str2bytes "True" from rfl, expectBytes_append]

theorem parseShapeInner_single (n : Nat) (fuel : Nat) (h : 0 < fuel) :
    parseShapeInner fuel (natToDec n ++ [44]) = some [n] := by
  obtain ⟨f, rfl⟩ : ∃ f, fuel = f + 1 := ⟨fuel - 1, by omega⟩
  have hne : natToDec n ++ [44] ≠ [] := by simp
  have hr : readNat (natToDec n ++ [44]) = some (n, [44]) := by
    refine readNat_natToDec n [44] ?_
    intro b hb
    simp only [List.head?_cons, Option.some.injEq] at hb
    subst hb
    decide
  simp [parseShapeInner, hne, hr]

theorem parseShapeInner_multi (ns : List Nat) (hne : ns ≠ []) (fuel : Nat)
    (hf : (shapeInner ns).length < fuel) :
    parseShapeInner fuel (shapeInner ns) = some ns := by
  induction ns generalizing fuel with
  | nil => exact absurd rfl hne
  | cons n ms ih =>
    obtain ⟨f, rfl⟩ : ∃ f, fuel = f + 1 := ⟨fuel - 1, by omega⟩
    cases ms with
    | nil =>
      have h0 : shapeInner [n] = natToDec n := rfl
      rw [h0]
      have hr : readNat (natToDec n) = some (n, []) := by
        have h1 := readNat_natToDec n [] (by intro b hb; simp at hb)
        simpa using h1
      have hne2 : natToDec n ≠ [] := natToDec_ne_nil n
      simp [parseShapeInner, hne2, hr]
    | cons m ms2 =>
      have h0 : shapeInner (n :: m :: ms2)
          = natToDec n ++ (44 :: 32 :: shapeInner (m :: ms2)) := by
        simp [shapeInner]
      have hr : readNat (natToDec n ++ (44 :: 32 :: shapeInner (m :: ms2)))
          = some (n, 44 :: 32 :: shapeInner (m :: ms2)) := by
        refine readNat_natToDec n _ ?_
        intro b hb
        simp only [List.head?_cons, Option.some.injEq] at hb
        subst hb
        decide
      have hlen1 : 1 ≤ (natToDec n).length :=
        List.length_pos.mpr (natToDec_ne_nil n)
      rw [h0] at hf ⊢
      have hne2 : natToDec n ++ (44 :: 32 :: shapeInner (m :: ms2)) ≠ [] := by
        simp
      have hfl : (shapeInner (m :: ms2)).length < f := by
        simp only [List.length_append, List.length_cons] at hf
        omega
      have hrec := ih (by simp) f hfl
      simp [parseShapeInner, hne2, hr, hrec]

theorem shapeInner_ne_41 (ns : List Nat) : ∀ b ∈ shapeInner ns, b ≠ 41 := by
  induction ns with
  | nil => simp [shapeInner]
  | cons n ms ih =>
    cases ms with
    | nil =>
      intro b hb
      exact (digit_ne_delims b (natToDec_digits n b hb)).2.1
    | cons m ms2 =>
      intro b hb
      have h0 : shapeInner (n :: m :: ms2)
          = natToDec n ++ (44 :: 32 :: shapeInner (m :: ms2)) := by
        simp [shapeInner]
      rw [h0] at hb
      simp only [List.mem_append, List.mem_cons] at hb
      rcases hb with hb | rfl | rfl | hb
      · exact (digit_ne_delims b (natToDec_digits n b hb)).2.1
      · omega
      · omega
      · exact ih b hb

theorem parseShape_shapeBytes (ns : List Nat) (r : List Nat) :
    parseShape (shapeBytes ns ++ r) = some (ns, r) := by
  cases ns with
  | nil =>
    show parseShape (40 :: (41 :: r)) = some ([], r)
    simp [parseShape, breakAt, parseShapeInner]
  | cons n ms =>
    cases ms with
    | nil =>
      have h0 : shapeBytes [n] ++ r = 40 :: (natToDec n ++ (44 :: 41 :: r)) := by
        simp [shapeBytes]
      rw [h0]
      have hbr : breakAt 41 ((natToDec n ++ [44]) ++ (41 :: r))
          = (natToDec n ++ [44], 41 :: r) := by
        refine breakAt_append 41 _ r ?_
        intro b hb
        simp only [List.mem_append, List.mem_cons] at hb
        rcases hb with hb | hb
        · exact (digit_ne_delims b (natToDec_digits n b hb)).2.1
        · simp at hb
          omega
      have hbr2 : breakAt 41 (natToDec n ++ (44 :: 41 :: r))
          = (natToDec n ++ [44], 41 :: r) := by
        simpa using hbr
      have hin := parseShapeInner_single n ((natToDec n).length + 1 + 1) (by omega)
      simp [parseShape, hbr2, hin]
    | cons m ms2 =>
      have h0 : shapeBytes (n :: m :: ms2) ++ r
          = 40 :: (shapeInner (n :: m :: ms2) ++ (41 :: r)) := by
        show 40 :: (shapeInner (n :: m :: ms2) ++ [41]) ++ r
            = 40 :: (shapeInner (n :: m :: ms2) ++ (41 :: r))
        simp
      rw [h0]
      have hbr : breakAt 41 (shapeInner (n :: m :: ms2) ++ (41 :: r))
          = (shapeInner (n :: m :: ms2), 41 :: r) :=
        breakAt_append 41 _ r (shapeInner_ne_41 _)
      have hinner := parseShapeInner_multi (n :: m :: ms2) (by simp)
        ((shapeInner (n :: m :: ms2)).length + 1) (by omega)
      simp [parseShape, hbr, hinner]

theorem parseDictText_complete (d : TypeDescriptor) (f : Bool) (sh : List Nat)
    (hd : validDesc d = true) (pad : Nat) :
    parseDictText (dictText ⟨d, f, sh⟩ ++ (List.replicate pad 32 ++ [10]))
      = some ⟨d, f, sh⟩ := by
  have e1 : dictText ⟨d, f, sh⟩ ++ (List.replicate pad 32 ++ [10])
      = seg1 ++ (serializeDesc d ++ (seg2 ++ (boolBytes f ++ (seg3 ++
        (shapeBytes sh ++ (seg4 ++ (List.replicate pad 32 ++ [10]))))))) := by
    simp [dictText]
  have hbr : breakAt 39 (serializeDesc d ++ (seg2 ++ (boolBytes f ++ (seg3 ++
        (shapeBytes sh ++ (seg4 ++ (List.replicate pad 32 ++ [10])))))))
      = (serializeDesc d, seg2 ++ (boolBytes f ++ (seg3 ++
        (shapeBytes sh ++ (seg4 ++ (List.replicate pad 32 ++ [10])))))) := by
    have h1 : seg2 ++ (boolBytes f ++ (seg3 ++ (shapeBytes sh ++
          (seg4 ++ (List.replicate pad 32 ++ [10])))))
        = 39 :: (([44, 32, 39] ++ (str2bytes "fortran_order" ++ [39, 58, 32])) ++
          (boolBytes f ++ (seg3 ++ (shapeBytes sh ++
            (seg4 ++ (List.replicate pad 32 ++ [10])))))) := by
      simp [seg2]
    rw [h1, breakAt_append 39 _ _ (serializeDesc_ne_quote d), ← h1]
  have hpd := parseDesc_serializeDesc d hd
  rw [e1]
  simp [parseDictText, expectBytes_append, hbr, hpd,
    parseBool_boolBytes, parseShape_shapeBytes, isPadding_pad]

theorem decodeHeader_pre_v1 (mi n pad : Nat) (text rest : List Nat) (h : Header)
    (hn : n < 65536) (hlen : text.length + pad + 1 = n)
    (hparse : parseDictText (text ++ (List.replicate pad 32 ++ [10])) = some h) :
    decodeHeader (npyMagic ++ (1 :: mi :: (leBytes 2 n ++
        (text ++ (List.replicate pad 32 ++ (10 :: rest)))))) = .ok (h, rest) := by
  have h2 := takeN_append (leBytes 2 n) (text ++ (List.replicate pad 32 ++ (10 :: rest)))
  rw [leBytes_length] at h2
  have h3 := takeN_append (text ++ (List.replicate pad 32 ++ [10])) rest
  have hlen2 : (text ++ (List.replicate pad 32 ++ [10])).length = n := by
    simp only [List.length_append, List.length_replicate, List.length_cons,
      List.length_nil]
    omega
  rw [hlen2] at h3
  simp only [List.append_assoc, List.cons_append, List.nil_append] at h3
  have h4 : leVal (leBytes 2 n) = n := leVal_leBytes 2 n (by norm_num; omega)
  simp [decodeHeader, expectBytes_append, readLenField, h2, h4, h3, hparse]

theorem decodeHeader_pre_v2 (mi n pad : Nat) (text rest : List Nat) (h : Header)
    (hn : n < 4294967296) (hlen : text.length + pad + 1 = n)
    (hparse : parseDictText (text ++ (List.replicate pad 32 ++ [10])) = some h) :
    decodeHeader (npyMagic ++ (2 :: mi :: (leBytes 4 n ++
        (text ++ (List.replicate pad 32 ++ (10 :: rest)))))) = .ok (h, rest) := by
  have h2 := takeN_append (leBytes 4 n) (text ++ (List.replicate pad 32 ++ (10 :: rest)))
  rw [leBytes_length] at h2
  have h3 := takeN_append (text ++ (List.replicate pad 32 ++ [10])) rest
  have hlen2 : (text ++ (List.replicate pad 32 ++ [10])).length = n := by
    simp only [List.length_append, List.length_replicate, List.length_cons,
      List.length_nil]
    omega
  rw [hlen2] at h3
  simp only [List.append_assoc, List.cons_append, List.nil_append] at h3
  have h4 : leVal (leBytes 4 n) = n := leVal_leBytes 4 n (by norm_num; omega)
  simp [decodeHeader, expectBytes_append, readLenField, h2, h4, h3, hparse]

/-- Decoding inverts encoding at the header level, for any valid descriptor
and any trailing stream; the 4-byte v2 length field bounds the dictionary
length (data-model invariant). -/
theorem decodeHeader_encodeHeader (h : Header) (hvd : validDesc h.descr = true)
    (hbound : (dictText h).length + 17 ≤ 4294967295) (rest : List Nat) :
    decodeHeader (encodeHeader h ++ rest) = .ok (h, rest) := by
  obtain ⟨d, f, sh⟩ := h
  simp only at hvd hbound
  simp only [encodeHeader]
  split
  next hc =>
    simp only [List.append_assoc, List.cons_append, List.nil_append]
    exact decodeHeader_pre_v1 0 _ _ _ rest ⟨d, f, sh⟩ (by omega) rfl
      (parseDictText_complete d f sh hvd _)
  next hc =>
    simp only [List.append_assoc, List.cons_append, List.nil_append]
    exact decodeHeader_pre_v2 0 _ _ _ rest ⟨d, f, sh⟩ (by omega) rfl
      (parseDictText_complete d f sh hvd _)

/-! ## ArrayCodec

Modelled from the spec (§4.4): `decode` parses the header then takes
`elementCount × itemSize` raw bytes unconverted; `encode` emits the header
then appends `data` unchanged. -/

structure NpArray where
  header : Header
  data : List Nat
deriving DecidableEq, Repr

/-- `ArrayCodec.encode`: header bytes followed by the raw data, unchanged. -/
def encodeArray (a : NpArray) : List Nat := encodeHeader a.header ++ a.data

/-- `ArrayCodec.decode`: header, then exactly `itemSize × elementCount` raw
bytes, stored in whatever order the header declares. -/
def decodeArray (bs : List Nat) : Except NpyErr NpArray :=
  match decodeHeader bs with
  | .error e => .error e
  | .ok (h, rest) =>
    let need := h.descr.itemSize * h.shape.prod
    if need ≤ rest.length then .ok ⟨h, rest.take need⟩ else .error .truncatedData

/-- Data-model invariant for headers: valid descriptor, and the dictionary
fits the 4-byte version-2 length field. -/
def validHeader (h : Header) : Bool :=
  validDesc h.descr && decide ((dictText h).length + 17 ≤ 4294967295)

/-- Data-model invariant for arrays (spec §3): valid header and
`data` of length `itemSize × product of shape`. -/
def validArray (a : NpArray) : Bool :=
  validHeader a.header &&
    decide (a.data.length = a.header.descr.itemSize * a.header.shape.prod)

theorem decodeArray_encodeArray (a : NpArray) (hv : validArray a = true) :
    decodeArray (encodeArray a) = .ok a := by
  obtain ⟨h, data⟩ := a
  simp only [validArray, validHeader, Bool.and_eq_true, decide_eq_true_eq] at hv
  obtain ⟨⟨hvd, hbound⟩, hlen⟩ := hv
  simp only [encodeArray] at *
  rw [decodeArray, decodeHeader_encodeHeader h hvd hbound data]
  simp [← hlen]

/-- A well-formed NPY byte stream: one produced by the canonical writer from
an array satisfying the data-model invariants (per spec §4.2 the format has
one canonical writer style, and §9 notes byte-exactness is relative to it). -/
def wellFormedNpy (bs : List Nat) : Prop :=
  ∃ a, validArray a = true ∧ encodeArray a = bs

/-- C1: ArrayCodec round trips exactly in both directions: every well-formed
NPY stream decodes to an array that re-encodes byte-for-byte to the original
stream, and every Array satisfying the data-model invariants decodes back
from its encoding with identical header fields and identical raw data. -/
theorem c1_arrayCodec_roundtrip :
    (∀ bs, wellFormedNpy bs → ∃ a, decodeArray bs = .ok a ∧ encodeArray a = bs) ∧
    (∀ a, validArray a = true → decodeArray (encodeArray a) = .ok a) := by
  constructor
  · rintro bs ⟨a, hv, rfl⟩
    exact ⟨a, decodeArray_encodeArray a hv, rfl⟩
  · exact decodeArray_encodeArray

/-- The concrete array of spec §8: shape `(2,3)`, dtype `<i4`, row-major,
values `0..5` in little-endian int32 encoding. -/
def exampleArray : NpArray :=
  ⟨⟨⟨.littleEndian, .int, 4⟩, false, [2, 3]⟩,
    ((List.range 6).map (leBytes 4)).flatten⟩

/-- Witness for C1 at the concrete `<i4` example array. -/
theorem c1_arrayCodec_roundtrip_witness :
    (∃ a, decodeArray (encodeArray exampleArray) = .ok a ∧
      encodeArray a = encodeArray exampleArray) ∧
    decodeArray (encodeArray exampleArray) = .ok exampleArray :=
  ⟨c1_arrayCodec_roundtrip.1 (encodeArray exampleArray)
      ⟨exampleArray, by decide, rfl⟩,
    c1_arrayCodec_roundtrip.2 exampleArray (by decide)⟩

/-- The reference NPY file for the `<i4` example of spec §8 (fixture
`array.npy` of `write_examples.py`): 80-byte preamble plus 24 data bytes. -/
def referenceNpyBytes : List Nat :=
  [147, 78, 85, 77, 80, 89, 1, 0, 70, 0, 123, 39, 100, 101, 115, 99, 114, 39, 58, 32,
   39, 60, 105, 52, 39, 44, 32, 39, 102, 111, 114, 116, 114, 97, 110, 95, 111, 114,
   100, 101, 114, 39, 58, 32, 70, 97, 108, 115, 101, 44, 32, 39, 115, 104, 97, 112,
   101, 39, 58, 32, 40, 50, 44, 32, 51, 41, 44, 32, 125, 32, 32, 32, 32, 32, 32, 32,
   32, 32, 32, 10, 0, 0, 0, 0, 1, 0, 0, 0, 2, 0, 0, 0, 3, 0, 0, 0, 4, 0, 0, 0, 5, 0,
   0, 0]

/-- C3: encoding the shape-(2,3) `<i4` row-major array with values 0..5
produces exactly the reference NPY byte sequence: magic, version 1.0,
the canonical dictionary text space-padded to a 16-byte-aligned 80-byte
preamble, then 24 bytes of little-endian int32 data 0..5. -/
theorem c3_concrete_reference_bytes :
    encodeArray exampleArray = referenceNpyBytes ∧
    referenceNpyBytes.take 6 = npyMagic ∧
    (referenceNpyBytes.drop 6).take 2 = [1, 0] ∧
    (referenceNpyBytes.take 80).length % 16 = 0 ∧
    referenceNpyBytes.drop 80 = ((List.range 6).map (leBytes 4)).flatten ∧
    (referenceNpyBytes.drop 80).length = 24 := by
  decide

/-- Version bytes (major, minor) of an encoded NPY stream. -/
def versionOf (bs : List Nat) : Option (Nat × Nat) :=
  match bs.drop 6 with
  | a :: b :: _ => some (a, b)
  | _ => none

/-- The padded dictionary length a version-1 header would have. -/
def v1HeaderLen (h : Header) : Nat :=
  (dictText h).length + (16 - (10 + (dictText h).length + 1) % 16) % 16 + 1

theorem npyMagic_length : npyMagic.length = 6 := rfl

/-- C8: the header-length field width is decided by the version — the decoder
reads a 2-byte little-endian length for major version 1 and a 4-byte
little-endian length for major version 2 or greater — and the encoder picks
the minimal version: 1.0 exactly when the padded dictionary fits the 2-byte
length field, otherwise 2.0. -/
theorem c8_header_length_field_width (h : Header) :
    versionOf (encodeHeader h) = some (if v1HeaderLen h ≤ 65535 then 1 else 2, 0) ∧
    (∀ n r, n < 65536 →
      readLenField 1 (leBytes 2 n ++ r) = some (n, r) ∧ (leBytes 2 n).length = 2) ∧
    (∀ mj n r, mj ≠ 1 → n < 4294967296 →
      readLenField mj (leBytes 4 n ++ r) = some (n, r) ∧ (leBytes 4 n).length = 4) := by
  refine ⟨?_, ?_, ?_⟩
  · rw [encodeHeader]
    by_cases hc : v1HeaderLen h ≤ 65535
    · rw [if_pos (show (dictText h).length + _ + 1 ≤ 65535 from hc), if_pos hc]
      rw [versionOf, ← npyMagic_length, List.drop_left]
      rfl
    · rw [if_neg (show ¬((dictText h).length + _ + 1 ≤ 65535) from hc), if_neg hc]
      rw [versionOf, ← npyMagic_length, List.drop_left]
      rfl
  · intro n r hn
    have h2 := takeN_append (leBytes 2 n) r
    rw [leBytes_length] at h2
    have h4 : leVal (leBytes 2 n) = n := leVal_leBytes 2 n (by norm_num; omega)
    exact ⟨by simp [readLenField, h2, h4], leBytes_length 2 n⟩
  · intro mj n r hmj hn
    have h2 := takeN_append (leBytes 4 n) r
    rw [leBytes_length] at h2
    have h4 : leVal (leBytes 4 n) = n := leVal_leBytes 4 n (by norm_num; omega)
    exact ⟨by simp [readLenField, hmj, h2, h4], leBytes_length 4 n⟩

/-- Witness for C8: the example header takes version 1.0, a 2-byte field
round-trips 70, and a 4-byte field round-trips 70000 under major version 2. -/
theorem c8_header_length_field_width_witness :
    versionOf (encodeHeader exampleArray.header)
      = some (if v1HeaderLen exampleArray.header ≤ 65535 then 1 else 2, 0) ∧
    readLenField 1 (leBytes 2 70 ++ [7]) = some (70, [7]) ∧
    readLenField 2 (leBytes 4 70000 ++ [9]) = some (70000, [9]) :=
  ⟨(c8_header_length_field_width exampleArray.header).1,
    ((c8_header_length_field_width exampleArray.header).2.1 70 [7] (by norm_num)).1,
    ((c8_header_length_field_width exampleArray.header).2.2 2 70000 [9]
      (by norm_num) (by norm_num)).1⟩

/-! ## ElementCodec

Modelled from the spec (§4.3): scalars carry the typed value the codec
moves; float and complex scalars are represented by their IEEE-754 bit
patterns, which is the exact information `readElement`/`writeElement`
transport (the codec performs no float arithmetic). -/

inductive Scalar where
  | bool (b : Bool)
  | int (i : Int)
  | uint (n : Nat)
  | float (bits : Nat)
  | complex (re im : Nat)
deriving DecidableEq, Repr

/-- Integer value of a byte string under a declared byte order. -/
def valWithOrder (o : ByteOrder) (bs : List Nat) : Nat :=
  match o with
  | .bigEndian => beVal bs
  | _ => leVal bs

/-- Byte string of an integer value under a declared byte order. -/
def bytesWithOrder (o : ByteOrder) (size n : Nat) : List Nat :=
  match o with
  | .bigEndian => beBytes size n
  | _ => leBytes size n

/-- `ElementCodec.readElement`: reinterpret `itemSize` bytes per the
descriptor kind and byte order.  Bool: any non-zero byte is `true`.
Int: two's complement.  Float: IEEE bit pattern, byte-order-aware.
Complex: two adjacent byte-order-decoded float patterns. -/
def readElement (d : TypeDescriptor) (bs : List Nat) : Option Scalar :=
  if bs.length = d.itemSize then
    match d.kind with
    | .bool => some (.bool (decide (valWithOrder d.byteOrder bs ≠ 0)))
    | .uint => some (.uint (valWithOrder d.byteOrder bs))
    | .int =>
      let u := valWithOrder d.byteOrder bs
      let m := 2 ^ (8 * d.itemSize)
      some (.int (if u < m / 2 then (u : Int) else (u : Int) - m))
    | .float => some (.float (valWithOrder d.byteOrder bs))
    | .complex =>
      some (.complex (valWithOrder d.byteOrder (bs.take (d.itemSize / 2)))
        (valWithOrder d.byteOrder (bs.drop (d.itemSize / 2))))
  else none

/-- `ElementCodec.writeElement`: inverse encoding; `none` models the
`TypeMismatch` and `Overflow` failures; booleans are written canonically
as `0` / `1`. -/
def writeElement (d : TypeDescriptor) (s : Scalar) : Option (List Nat) :=
  match d.kind, s with
  | .bool, .bool b => some [if b then 1 else 0]
  | .uint, .uint n =>
    if n < 2 ^ (8 * d.itemSize) then some (bytesWithOrder d.byteOrder d.itemSize n)
    else none
  | .int, .int i =>
    let m : Int := 2 ^ (8 * d.itemSize)
    if -(m / 2) ≤ i ∧ i < m / 2 then
      some (bytesWithOrder d.byteOrder d.itemSize (i % m).toNat)
    else none
  | .float, .float bits =>
    if bits < 2 ^ (8 * d.itemSize) then
      some (bytesWithOrder d.byteOrder d.itemSize bits)
    else none
  | .complex, .complex re im =>
    if re < 2 ^ (8 * (d.itemSize / 2)) ∧ im < 2 ^ (8 * (d.itemSize / 2)) then
      some (bytesWithOrder d.byteOrder (d.itemSize / 2) re ++
        bytesWithOrder d.byteOrder (d.itemSize / 2) im)
    else none
  | _, _ => none

theorem beVal_beBytes (size n : Nat) (h : n < 256 ^ size) :
    beVal (beBytes size n) = n := by
  simp [beVal, beBytes, leVal_leBytes size n h]

/-- The bool descriptor (`|?1` in the mini-language). -/
def boolDesc : TypeDescriptor := ⟨.notApplicable, .bool, 1⟩

/-- C6: for the bool descriptor, `readElement` maps every non-zero raw byte
to `true` and exactly the byte 0 to `false`, never failing; and
`writeElement` of the scalar read back always emits the canonical byte 1
for `true` and 0 for `false` — re-encoding a value read from raw byte 5
emits byte 1, not 5. -/
theorem c6_bool_read_lax_write_canonical (b : Nat) (hb : b ≠ 0) :
    readElement boolDesc [b] = some (.bool true) ∧
    readElement boolDesc [0] = some (.bool false) ∧
    writeElement boolDesc (.bool true) = some [1] ∧
    writeElement boolDesc (.bool false) = some [0] ∧
    (∀ s, readElement boolDesc [b] = some s → writeElement boolDesc s = some [1]) := by
  have hread : readElement boolDesc [b] = some (.bool true) := by
    simp [readElement, boolDesc, valWithOrder, leVal, hb]
  refine ⟨hread, by simp [readElement, boolDesc, valWithOrder, leVal], rfl, rfl, ?_⟩
  intro s hs
  rw [hread] at hs
  injection hs with hs
  subst hs
  rfl

/-- Witness for C6 at the non-canonical raw byte 5. -/
theorem c6_bool_read_lax_write_canonical_witness :
    readElement boolDesc [5] = some (.bool true) ∧
    writeElement boolDesc (.bool true) = some [1] :=
  ⟨(c6_bool_read_lax_write_canonical 5 (by decide)).1,
    (c6_bool_read_lax_write_canonical 5 (by decide)).2.2.1⟩

/-- The `<f8` descriptor. -/
def f64LE : TypeDescriptor := ⟨.littleEndian, .float, 8⟩

/-- The `>f8` descriptor. -/
def f64BE : TypeDescriptor := ⟨.bigEndian, .float, 8⟩

theorem readElement_leBytes_float (v : Nat) (hv : v < 2 ^ 64) :
    readElement f64LE (leBytes 8 v) = some (.float v) := by
  have h1 : v < 256 ^ 8 := by norm_num; omega
  simp [readElement, f64LE, leBytes_length, valWithOrder, leVal_leBytes 8 v h1]

theorem readElement_beBytes_float (v : Nat) (hv : v < 2 ^ 64) :
    readElement f64BE (beBytes 8 v) = some (.float v) := by
  have h1 : v < 256 ^ 8 := by norm_num; omega
  simp [readElement, f64BE, beBytes_length, valWithOrder, beVal_beBytes 8 v h1]

/-- C4: writing the same logical float64 value once with the little-endian
descriptor and once with the big-endian descriptor, then reading each stream
back with its declared descriptor, yields the identical scalar — elementwise
over any logical array. -/
theorem c4_endianness_identical_values (v : Nat) (hv : v < 2 ^ 64) :
    writeElement f64LE (.float v) = some (leBytes 8 v) ∧
    writeElement f64BE (.float v) = some (beBytes 8 v) ∧
    readElement f64LE (leBytes 8 v) = some (.float v) ∧
    readElement f64BE (beBytes 8 v) = some (.float v) ∧
    readElement f64LE (leBytes 8 v) = readElement f64BE (beBytes 8 v) := by
  have hle := readElement_leBytes_float v hv
  have hbe := readElement_beBytes_float v hv
  refine ⟨?_, ?_, hle, hbe, by rw [hle, hbe]⟩
  · simp [writeElement, f64LE, bytesWithOrder]
    omega
  · simp [writeElement, f64BE, bytesWithOrder]
    omega

/-- Witness for C4 at the IEEE-754 pattern of the double 1.0. -/
theorem c4_endianness_identical_values_witness :
    readElement f64LE (leBytes 8 4607182418800017408)
      = readElement f64BE (beBytes 8 4607182418800017408) :=
  (c4_endianness_identical_values 4607182418800017408 (by norm_num)).2.2.2.2

/-! ## Layout: row-major vs column-major access (C5)

Modelled from the spec (§4.4): the stored element sequence is the linear
byte layout implied by `fortranOrder`; the caller maps shape-indexed access
onto the linear buffer with row-major strides when `fortranOrder = false`
and column-major strides when `fortranOrder = true`.  The fixture generator
(`write_example_array`) fills `arr.flat[i] = f(i)`, i.e. the logical element
at C-order position `i` is `f i` for both memory orders. -/

/-- Row-major (C) linear index for shape 2×3×4. -/
def rowMajorIdx (i j k : Nat) : Nat := (i * 3 + j) * 4 + k

/-- Column-major (Fortran) linear index for shape 2×3×4. -/
def colMajorIdx (i j k : Nat) : Nat := i + 2 * (j + 3 * k)

/-- Linear buffer of the logical array `f` in C order. -/
def cOrderData (f : Nat → Nat) : List Nat :=
  ((List.range 24).map (fun m => leBytes 8 (f m))).flatten

/-- Linear buffer of the logical array `f` in Fortran order: position `p`
holds the logical element whose column-major index is `p`. -/
def fOrderData (f : Nat → Nat) : List Nat :=
  ((List.range 24).map
    (fun p => leBytes 8 (f (rowMajorIdx (p % 2) (p / 2 % 3) (p / 6))))).flatten

/-- The 2×3×4 `<f8` array written with `fortranOrder = false`. -/
def cArray (f : Nat → Nat) : NpArray := ⟨⟨f64LE, false, [2, 3, 4]⟩, cOrderData f⟩

/-- The same logical array written with `fortranOrder = true`. -/
def fArray (f : Nat → Nat) : NpArray := ⟨⟨f64LE, true, [2, 3, 4]⟩, fOrderData f⟩

/-- The byte slice of element `idx` in a linear buffer of `itemSize`-byte
elements (caller-side strided access). -/
def elemSlice (itemSize idx : Nat) (data : List Nat) : List Nat :=
  (data.drop (idx * itemSize)).take itemSize

theorem drop_append_len (x r : List Nat) (n : Nat) :
    (x ++ r).drop (x.length + n) = r.drop n := by
  induction x with
  | nil => simp
  | cons a as ih =>
    have h1 : (a :: as).length + n = (as.length + n) + 1 := by simp; omega
    rw [h1, List.cons_append, List.drop_succ_cons, ih]

theorem elemSlice_flatten (w : Nat) (l : List (List Nat))
    (hl : ∀ x ∈ l, x.length = w) (i : Nat) (hi : i < l.length) :
    elemSlice w i l.flatten = l.get ⟨i, hi⟩ := by
  induction l generalizing i with
  | nil => simp at hi
  | cons x xs ih =>
    have hx : x.length = w := hl x (by simp)
    cases i with
    | zero =>
      simp only [elemSlice, Nat.zero_mul, List.drop_zero, List.flatten_cons]
      rw [← hx, List.take_left]
      rfl
    | succ m =>
      have hm : m < xs.length := by simpa using hi
      have ih2 := ih (fun y hy => hl y (by simp [hy])) m hm
      simp only [elemSlice, List.flatten_cons] at ih2 ⊢
      have h1 : (m + 1) * w = x.length + m * w := by rw [hx]; ring
      rw [h1, drop_append_len]
      exact ih2

theorem cOrderData_length (f : Nat → Nat) : (cOrderData f).length = 192 := by
  rw [cOrderData, List.length_flatten, List.map_map]
  have h1 : (List.range 24).map (List.length ∘ fun m => leBytes 8 (f m))
      = (List.range 24).map (fun _ => 8) := by
    apply List.map_congr_left
    intro m hm
    simp [leBytes_length]
  rw [h1]
  decide

theorem fOrderData_length (f : Nat → Nat) : (fOrderData f).length = 192 := by
  rw [fOrderData, List.length_flatten, List.map_map]
  have h1 : (List.range 24).map
        (List.length ∘ fun p => leBytes 8 (f (rowMajorIdx (p % 2) (p / 2 % 3) (p / 6))))
      = (List.range 24).map (fun _ => 8) := by
    apply List.map_congr_left
    intro m hm
    simp [leBytes_length]
  rw [h1]
  decide

theorem cArray_valid (f : Nat → Nat) : validArray (cArray f) = true := by
  simp [validArray, cArray, cOrderData_length]
  exact ⟨by decide, by decide⟩

theorem fArray_valid (f : Nat → Nat) : validArray (fArray f) = true := by
  simp [validArray, fArray, fOrderData_length]
  exact ⟨by decide, by decide⟩

/-- C5: for a 2×3×4 array, encoding with `fortranOrder = false` and reading
element (i,j,k) from the linear buffer via row-major strides returns the same
logical value as encoding the same logical array with `fortranOrder = true`
and reading via column-major strides; ArrayCodec itself never transposes the
stored element sequence (decode returns each buffer unchanged). -/
theorem c5_layout_row_column_agree (f : Nat → Nat) (hf : ∀ m, f m < 2 ^ 64)
    (i j k : Nat) (hi : i < 2) (hj : j < 3) (hk : k < 4) :
    decodeArray (encodeArray (cArray f)) = .ok (cArray f) ∧
    decodeArray (encodeArray (fArray f)) = .ok (fArray f) ∧
    readElement f64LE (elemSlice 8 (rowMajorIdx i j k) (cArray f).data)
      = some (.float (f (rowMajorIdx i j k))) ∧
    readElement f64LE (elemSlice 8 (colMajorIdx i j k) (fArray f).data)
      = some (.float (f (rowMajorIdx i j k))) := by
  refine ⟨decodeArray_encodeArray _ (cArray_valid f),
    decodeArray_encodeArray _ (fArray_valid f), ?_, ?_⟩
  · have hidx : rowMajorIdx i j k < 24 := by
      unfold rowMajorIdx
      omega
    have hlen : ((List.range 24).map (fun m => leBytes 8 (f m))).length = 24 := by
      simp
    have hs := elemSlice_flatten 8 ((List.range 24).map (fun m => leBytes 8 (f m)))
      (by
        intro x hx
        simp only [List.mem_map, List.mem_range] at hx
        obtain ⟨m, _, rfl⟩ := hx
        exact leBytes_length 8 _)
      (rowMajorIdx i j k) (by omega)
    show readElement f64LE (elemSlice 8 (rowMajorIdx i j k) (cOrderData f)) = _
    rw [cOrderData, hs]
    have hget : ((List.range 24).map (fun m => leBytes 8 (f m))).get
        ⟨rowMajorIdx i j k, by omega⟩ = leBytes 8 (f (rowMajorIdx i j k)) := by
      simp
    rw [hget]
    exact readElement_leBytes_float _ (hf _)
  · have hidx : colMajorIdx i j k < 24 := by
      unfold colMajorIdx
      omega
    have hlen : ((List.range 24).map
        (fun p => leBytes 8 (f (rowMajorIdx (p % 2) (p / 2 % 3) (p / 6))))).length = 24 := by
      simp
    have hs := elemSlice_flatten 8 ((List.range 24).map
        (fun p => leBytes 8 (f (rowMajorIdx (p % 2) (p / 2 % 3) (p / 6)))))
      (by
        intro x hx
        simp only [List.mem_map, List.mem_range] at hx
        obtain ⟨m, _, rfl⟩ := hx
        exact leBytes_length 8 _)
      (colMajorIdx i j k) (by omega)
    show readElement f64LE (elemSlice 8 (colMajorIdx i j k) (fOrderData f)) = _
    rw [fOrderData, hs]
    have e1 : colMajorIdx i j k % 2 = i := by
      unfold colMajorIdx
      omega
    have e2 : colMajorIdx i j k / 2 % 3 = j := by
      unfold colMajorIdx
      omega
    have e3 : colMajorIdx i j k / 6 = k := by
      unfold colMajorIdx
      omega
    have hget : ((List.range 24).map
        (fun p => leBytes 8 (f (rowMajorIdx (p % 2) (p / 2 % 3) (p / 6))))).get
        ⟨colMajorIdx i j k, by omega⟩
        = leBytes 8 (f (rowMajorIdx i j k)) := by
      simp only [List.get_eq_getElem, List.getElem_map, List.getElem_range]
      rw [e1, e2, e3]
    rw [hget]
    exact readElement_leBytes_float _ (hf _)

/-- Witness for C5 at the logical array `f m = m % 7` and index (1,2,3). -/
theorem c5_layout_row_column_agree_witness :
    readElement f64LE (elemSlice 8 (colMajorIdx 1 2 3) (fArray (fun m => m % 7)).data)
      = some (.float ((fun m : Nat => m % 7) (rowMajorIdx 1 2 3))) :=
  (c5_layout_row_column_agree (fun m => m % 7)
    (fun m => by show m % 7 < 2 ^ 64; omega) 1 2 3
    (by omega) (by omega) (by omega)).2.2.2

/-! ## ArchiveCodec

Modelled from the spec (§4.5): the zip container machinery (central
directory, store/deflate, alignment extra fields) is an out-of-scope
external primitive (spec §1), so an archive is modelled as its extracted
member list — ordered (memberName, payloadBytes) pairs, each payload an
independent NPY stream; member names carry the required `.npy` suffix. -/

/-- Drop the `.npy` suffix from a member name. -/
def stripNpySuffix (name : List Nat) : List Nat :=
  if name.drop (name.length - 4) = str2bytes ".npy" then
    name.take (name.length - 4)
  else name

/-- `ArchiveCodec.decode`: each member is decoded independently; the result
pairs each entry name (minus the `.npy` suffix) with either a decoded array
or that member's error, preserving order. -/
def archiveDecode (entries : List (List Nat × List Nat)) :
    List (List Nat × Except NpyErr NpArray) :=
  entries.map (fun e => (stripNpySuffix e.1, decodeArray e.2))

/-- `ArchiveCodec.encode` (tight, no alignment padding): one member per
array, name plus `.npy` suffix, payload produced by `ArrayCodec.encode`,
in insertion order. -/
def archiveEncode (arrs : List (List Nat × NpArray)) : List (List Nat × List Nat) :=
  arrs.map (fun e => (e.1 ++ str2bytes ".npy", encodeArray e.2))

deriving instance DecidableEq for Except

/-- Successful-entry test. -/
def isOkE : Except NpyErr NpArray → Bool
  | .ok _ => true
  | .error _ => false

theorem stripNpySuffix_append (n : List Nat) :
    stripNpySuffix (n ++ str2bytes ".npy") = n := by
  have hlen : (n ++ str2bytes ".npy").length - 4 = n.length := by
    simp [str2bytes]
  rw [stripNpySuffix, hlen]
  have hd : (n ++ str2bytes ".npy").drop n.length = str2bytes ".npy" :=
    List.drop_left n _
  rw [hd, if_pos rfl, List.take_left]

/-- C7: ArchiveCodec.decode isolates per-entry failures: an archive whose
three members contain exactly one corrupt payload decodes to a result list
pairing each name with either an array or an error, with exactly one error
entry and two successfully decoded arrays, in order, the corrupt member
discarding no sibling. -/
theorem c7_archive_error_isolation (n1 n2 n3 p1 p2 p3 : List Nat)
    (a1 a3 : NpArray) (e : NpyErr)
    (h1 : decodeArray p1 = .ok a1) (h2 : decodeArray p2 = .error e)
    (h3 : decodeArray p3 = .ok a3) :
    archiveDecode [(n1, p1), (n2, p2), (n3, p3)]
      = [(stripNpySuffix n1, .ok a1), (stripNpySuffix n2, .error e),
         (stripNpySuffix n3, .ok a3)] ∧
    (archiveDecode [(n1, p1), (n2, p2), (n3, p3)]).countP (fun q => isOkE q.2) = 2 ∧
    (archiveDecode [(n1, p1), (n2, p2), (n3, p3)]).countP (fun q => !isOkE q.2) = 1 := by
  refine ⟨?_, ?_, ?_⟩ <;>
    simp [archiveDecode, h1, h2, h3, List.countP_cons, isOkE]

/-- The b8 fixture member of `write_npz_examples.py`: `[True, False]`. -/
def b8arr : NpArray := ⟨⟨⟨.notApplicable, .bool, 1⟩, false, [2]⟩, [1, 0]⟩

/-- The i8 fixture member: `0..9` as int8. -/
def i8arr : NpArray := ⟨⟨⟨.notApplicable, .int, 1⟩, false, [10]⟩, List.range 10⟩

/-- The u8 fixture member: `0..9` as uint8. -/
def u8arr : NpArray := ⟨⟨⟨.notApplicable, .uint, 1⟩, false, [10]⟩, List.range 10⟩

/-- Witness for C7: a 1-byte corrupt payload between two valid members. -/
theorem c7_archive_error_isolation_witness :
    archiveDecode [(str2bytes "b8.npy", encodeArray b8arr),
        (str2bytes "bad.npy", [0]),
        (str2bytes "u8.npy", encodeArray u8arr)]
      = [(stripNpySuffix (str2bytes "b8.npy"), .ok b8arr),
         (stripNpySuffix (str2bytes "bad.npy"), .error .badMagic),
         (stripNpySuffix (str2bytes "u8.npy"), .ok u8arr)] :=
  (c7_archive_error_isolation _ _ _ _ _ _ b8arr u8arr .badMagic
    (by decide) (by decide) (by decide)).1

/-- C9: building a tight (unpadded) archive from the three named fixture
arrays b8, i8, u8 and decoding it returns exactly the three arrays with
matching names, dtypes and element values, in the original insertion order. -/
theorem c9_archive_build_decode_roundtrip :
    archiveDecode (archiveEncode
      [(str2bytes "b8", b8arr), (str2bytes "i8", i8arr), (str2bytes "u8", u8arr)])
      = [(str2bytes "b8", .ok b8arr), (str2bytes "i8", .ok i8arr),
         (str2bytes "u8", .ok u8arr)] := by
  decide

/-! ## Byteswapped archive fixtures (C10)

Modelled from `src/tests/write_npz_examples.py` (lines 14–52) together with
numpy's documented `ndarray.byteswap()` semantics: byteswap reverses the
bytes of each element in place and leaves the declared dtype unchanged, so
the big-endian archive stores byte-swapped data under the very same
little-endian descriptor strings. -/

/-- A modelled numpy 1-d array: dtype plus the per-element stored bytes. -/
structure NdModel where
  dtype : TypeDescriptor
  elems : List (List Nat)
deriving DecidableEq, Repr

/-- `ndarray.byteswap()`: per-element byte reversal, dtype unchanged. -/
def byteswapArr (a : NdModel) : NdModel := ⟨a.dtype, a.elems.map List.reverse⟩

/-- `np.save` of a modelled 1-d array: header descriptor = array dtype,
data = concatenated element bytes. -/
def ndToNpy (a : NdModel) : NpArray :=
  ⟨⟨a.dtype, false, [a.elems.length]⟩, a.elems.flatten⟩

/-- IEEE-754 single-precision bit patterns of the floats 0.0 .. 9.0. -/
def f32patterns : List Nat :=
  [0, 1065353216, 1073741824, 1077936128, 1082130432, 1084227584,
   1086324736, 1088421888, 1090519040, 1091567616]

/-- IEEE-754 double-precision bit patterns of the doubles 0.0 .. 9.0. -/
def f64patterns : List Nat :=
  [0, 4607182418800017408, 4611686018427387904, 4613937818241073152,
   4616189618054758400, 4617315517961601024, 4618441417868443648,
   4619567317775286272, 4620693217682128896, 4621256167635550208]

/-- The eight members of `examples_little_endian.npz` as generated by the
fixture script: `np.arange(10)` at each width, little-endian host order. -/
def leMembers : List (List Nat × NdModel) :=
  [(str2bytes "i16", ⟨⟨.littleEndian, .int, 2⟩, (List.range 10).map (leBytes 2)⟩),
   (str2bytes "u16", ⟨⟨.littleEndian, .uint, 2⟩, (List.range 10).map (leBytes 2)⟩),
   (str2bytes "i32", ⟨⟨.littleEndian, .int, 4⟩, (List.range 10).map (leBytes 4)⟩),
   (str2bytes "u32", ⟨⟨.littleEndian, .uint, 4⟩, (List.range 10).map (leBytes 4)⟩),
   (str2bytes "i64", ⟨⟨.littleEndian, .int, 8⟩, (List.range 10).map (leBytes 8)⟩),
   (str2bytes "u64", ⟨⟨.littleEndian, .uint, 8⟩, (List.range 10).map (leBytes 8)⟩),
   (str2bytes "f32", ⟨⟨.littleEndian, .float, 4⟩, f32patterns.map (leBytes 4)⟩),
   (str2bytes "f64", ⟨⟨.littleEndian, .float, 8⟩, f64patterns.map (leBytes 8)⟩)]

/-- The members of `examples_big_endian.npz`: `le.byteswap()` per member. -/
def beMembers : List (List Nat × NdModel) :=
  leMembers.map (fun p => (p.1, byteswapArr p.2))

/-- Opposite byte order. -/
def flipOrder : ByteOrder → ByteOrder
  | .littleEndian => .bigEndian
  | .bigEndian => .littleEndian
  | .notApplicable => .notApplicable

/-- C10: every member of the big-endian archive stores the per-element
byteswap of the little-endian member's data under an unchanged (still
little-endian) stored descriptor; reading a byte-swapped element under the
declared descriptor equals reading the original under the opposite byte
order, so decoding the two archives per their declared descriptors yields
byte-swap-related values — concretely unequal ones (element 1 of i16 reads
as 256, not 1). -/
theorem c10_byteswap_keeps_descriptor (d : TypeDescriptor) (bs : List Nat)
    (hk : d.kind ≠ .complex) (hbo : d.byteOrder ≠ .notApplicable)
    (hbs : bs.length = d.itemSize) :
    (beMembers.map (fun p => (p.1, (ndToNpy p.2).header.descr))
      = leMembers.map (fun p => (p.1, (ndToNpy p.2).header.descr))) ∧
    (beMembers.map (fun p => (ndToNpy p.2).data)
      = leMembers.map (fun p => (p.2.elems.map List.reverse).flatten)) ∧
    readElement d bs.reverse
      = readElement ⟨flipOrder d.byteOrder, d.kind, d.itemSize⟩ bs ∧
    readElement ⟨.littleEndian, .int, 2⟩ (leBytes 2 1).reverse = some (.int 256) ∧
    readElement ⟨.littleEndian, .int, 2⟩ (leBytes 2 1) = some (.int 1) := by
  refine ⟨by decide, by decide, ?_, by decide, by decide⟩
  obtain ⟨o, k, w⟩ := d
  simp only at hk hbo hbs
  cases o with
  | notApplicable => exact absurd rfl hbo
  | littleEndian =>
    cases k <;> simp [readElement, valWithOrder, flipOrder, beVal, hbs] <;>
      exact absurd rfl hk
  | bigEndian =>
    cases k <;> simp [readElement, valWithOrder, flipOrder, beVal, hbs] <;>
      exact absurd rfl hk

/-- Witness for C10 at the i16 member's element 1: little-endian bytes of 1
reversed, read little-endian, equal the big-endian read of the original. -/
theorem c10_byteswap_keeps_descriptor_witness :
    readElement ⟨.littleEndian, .int, 2⟩ (leBytes 2 1).reverse
      = readElement ⟨flipOrder .littleEndian, .int, 2⟩ (leBytes 2 1) :=
  (c10_byteswap_keeps_descriptor ⟨.littleEndian, .int, 2⟩ (leBytes 2 1)
    (by decide) (by decide) (by decide)).2.2.1
